import Mathlib

/-!
Verification of the typed HTTP header core: the `Content-Length` header
(src/header/common/content_length.rs) and the `Transfer-Encoding` header
(src/header/common/transfer_encoding.rs).

Wire text is embedded as `List Char`; a raw header line set is a
`List (List Char)` (each entry one raw line, already decoded as text).
The shared utilities `from_one_raw_str`, `from_comma_delimited` and
`fmt_comma_delimited` (module header::shared::util) and the standard
numeric conversions are not part of the given source files; they are
modelled from the specification as marked on each definition.
-/

namespace HyperHeader

/-- Modelled from the spec: an ASCII digit, per the wire grammar of the
byte-count header ("ASCII digits only"). -/
def isDigitChar (c : Char) : Bool := 48 ≤ c.toNat && c.toNat ≤ 57

/-- Modelled from the spec: value accumulation of an unsigned decimal
integer parse, one digit at a time left to right (the standard library's
`u64::from_str`, not part of the given source files). -/
def decStep (a : Nat) (c : Char) : Nat := 10 * a + (c.toNat - 48)

/-- Modelled from the spec: unsigned 64-bit decimal integer parsing
(`u64::from_str`, not part of the given source files).  Per the wire
grammar: ASCII digits only, no sign, no leading plus, leading zeros
accepted, the value must fit an unsigned 64-bit integer. -/
def parse_u64 (s : List Char) : Option Nat :=
  if s = [] then none
  else if s.all isDigitChar then
    let n := s.foldl decStep 0
    if n < 2 ^ 64 then some n else none
  else none

/-- Modelled from the spec: `merge-to-single-string` composed with the
element parse (`header::shared::util::from_one_raw_str`, not under src/).
Requires exactly one raw line; zero or two-or-more lines fail. -/
def from_one_raw_str (raw : List (List Char)) : Option Nat :=
  match raw with
  | [s] => parse_u64 s
  | _ => none

/-- Digit character of a value below ten (units of decimal rendering). -/
def digitChar (d : Nat) : Char := Char.ofNat (48 + d)

/-- Modelled from the spec: the decimal digit sequence of `n`, most
significant first, empty for zero (the standard library's decimal
rendering of an unsigned integer, not part of the given source files). -/
def toDecDigits : Nat → List Char
  | 0 => []
  | n + 1 => toDecDigits ((n + 1) / 10) ++ [digitChar ((n + 1) % 10)]
decreasing_by exact Nat.div_lt_self (Nat.succ_pos n) (by norm_num)

/-- Modelled from the spec: "write the integer's decimal text form
verbatim (no thousands separators, no sign, unsigned)". -/
def u64_to_string (n : Nat) : List Char :=
  if n = 0 then ['0'] else toDecDigits n

/-- The `Content-Length` header: a wrapper around an unsigned 64-bit
integer (struct ContentLength(pub u64)). -/
structure ContentLength where
  val : Nat
  deriving DecidableEq, Repr

/-- ContentLength::header_name: a constant, its argument ignored. -/
def ContentLength.header_name (_ : Option ContentLength) : List Char :=
  "Content-Length".data

/-- ContentLength::parse_header: from_one_raw_str(raw).map(ContentLength). -/
def ContentLength.parse_header (raw : List (List Char)) : Option ContentLength :=
  (from_one_raw_str raw).map ContentLength.mk

/-- ContentLength::fmt_header: delegates to the integer's own decimal
text form (fmt::String::fmt of the wrapped u64, under default flags). -/
def ContentLength.fmt_header (c : ContentLength) : List Char :=
  u64_to_string c.val

/-- A value to be used with the `Transfer-Encoding` header (enum Encoding). -/
inductive Encoding where
  | Chunked
  | Gzip
  | Deflate
  | Compress
  | EncodingExt (s : List Char)
  deriving DecidableEq, Repr

/-- fmt::String for Encoding: the textual form of one token. -/
def Encoding.fmt : Encoding → List Char
  | .Chunked => "chunked".data
  | .Gzip => "gzip".data
  | .Deflate => "deflate".data
  | .Compress => "compress".data
  | .EncodingExt s => s

/-- FromStr for Encoding: case-sensitive exact match against the known
keywords, in the source's order; anything else becomes EncodingExt. -/
def Encoding.from_str (s : List Char) : Option Encoding :=
  if s = "chunked".data then some .Chunked
  else if s = "deflate".data then some .Deflate
  else if s = "gzip".data then some .Gzip
  else if s = "compress".data then some .Compress
  else some (.EncodingExt s)

/-- Modelled from the spec: trimming surrounding whitespace from a piece
(`str::trim`, not part of the given source files): drop whitespace from
the front, then from the back. -/
def trimLeft (s : List Char) : List Char := s.dropWhile Char.isWhitespace

/-- Modelled from the spec: surrounding-whitespace trim of a piece. -/
def trim (s : List Char) : List Char :=
  (trimLeft (trimLeft s).reverse).reverse

/-- Modelled from the spec: splitting one raw line on commas
(`str::split(',')`, not part of the given source files).  A line with no
comma is one piece; each comma ends a piece, so consecutive or trailing
commas produce empty pieces. -/
def splitComma : List Char → List (List Char)
  | [] => [[]]
  | c :: rest =>
    if c = ',' then [] :: splitComma rest
    else
      match splitComma rest with
      | [] => [[c]]
      | p :: ps => (c :: p) :: ps

/-- Modelled from the spec: the per-line stage of `merge-to-token-sequence` —
split the line on commas, trim surrounding whitespace from each piece,
discard the empty pieces. -/
def tokenize (line : List Char) : List (List Char) :=
  (((splitComma line).map trim).filter fun p => !p.isEmpty)

/-- Modelled from the spec: `merge-to-token-sequence`
(`header::shared::util::from_comma_delimited`, not under src/): decoding
from zero raw lines yields none; otherwise every line is split on commas,
each piece trimmed, empty pieces discarded, and each remaining piece
parsed by the token type's string-to-token conversion, in encounter order
across all lines then within each line.  (Lines are already text in this
embedding, so the invalid-text failure case does not arise.) -/
def from_comma_delimited (raw : List (List Char)) : Option (List Encoding) :=
  if raw = [] then none
  else some (((raw.map tokenize).flatten).filterMap Encoding.from_str)

/-- Modelled from the spec: `format-token-sequence`
(`header::shared::util::fmt_comma_delimited`, not under src/): joins the
textual form of each token with ", " in stored order. -/
def fmt_comma_delimited : List Encoding → List Char
  | [] => []
  | [e] => e.fmt
  | e :: rest => e.fmt ++ ", ".data ++ fmt_comma_delimited rest

/-- The `Transfer-Encoding` header: a wrapper around a vector of
Encoding values (struct TransferEncoding(pub Vec<Encoding>)). -/
structure TransferEncoding where
  encodings : List Encoding
  deriving DecidableEq, Repr

/-- TransferEncoding::header_name: a constant, its argument ignored. -/
def TransferEncoding.header_name (_ : Option TransferEncoding) : List Char :=
  "Transfer-Encoding".data

/-- TransferEncoding::parse_header: from_comma_delimited(raw).map(TransferEncoding). -/
def TransferEncoding.parse_header (raw : List (List Char)) : Option TransferEncoding :=
  (from_comma_delimited raw).map TransferEncoding.mk

/-- TransferEncoding::fmt_header: fmt_comma_delimited over the wrapped list. -/
def TransferEncoding.fmt_header (t : TransferEncoding) : List Char :=
  fmt_comma_delimited t.encodings

/-- The positional (most-significant-first) decimal value of a character
sequence read as a numeral: the textbook valuation, independent of the
parser's accumulator. -/
def repValue : List Char → Nat
  | [] => 0
  | c :: rest => (c.toNat - 48) * 10 ^ rest.length + repValue rest

/-- The normalization the decode path applies to a token: an extension
string exactly matching a known keyword becomes that keyword's canonical
variant; everything else is unchanged. -/
def normalize : Encoding → Encoding
  | .EncodingExt s =>
    if s = "chunked".data then .Chunked
    else if s = "deflate".data then .Deflate
    else if s = "gzip".data then .Gzip
    else if s = "compress".data then .Compress
    else .EncodingExt s
  | e => e

/-- A token that survives the wire round trip intact: its extension
string (if any) is non-empty, comma-free and already trimmed. -/
def Encoding.good : Encoding → Prop
  | .EncodingExt s => s ≠ [] ∧ ',' ∉ s ∧ trim s = s
  | _ => True

/-! Decimal numeral lemmas -/

theorem foldl_decStep (s : List Char) (a : Nat) :
    s.foldl decStep a = a * 10 ^ s.length + repValue s := by
  induction s generalizing a with
  | nil => simp [repValue]
  | cons c rest ih =>
    rw [List.foldl_cons, ih (decStep a c), decStep, repValue, List.length_cons]
    ring

theorem repValue_append (l : List Char) (c : Char) :
    repValue (l ++ [c]) = 10 * repValue l + (c.toNat - 48) := by
  induction l with
  | nil => simp [repValue]
  | cons x xs ih =>
    simp only [List.cons_append, repValue, List.append_eq, ih, List.length_append,
      List.length_cons, List.length_nil]
    ring

theorem digitChar_fact (d : Nat) (hd : d < 10) :
    isDigitChar (digitChar d) = true ∧ (digitChar d).toNat - 48 = d ∧
    (digitChar d = '0' ↔ d = 0) := by
  interval_cases d <;> decide

theorem isDigitChar_fact (c : Char) (hc : isDigitChar c = true) :
    c.toNat - 48 < 10 ∧ digitChar (c.toNat - 48) = c ∧ 48 ≤ c.toNat := by
  simp only [isDigitChar, Bool.and_eq_true, decide_eq_true_eq] at hc
  refine ⟨by omega, ?_, hc.1⟩
  have h48 : 48 + (c.toNat - 48) = c.toNat := by omega
  rw [digitChar, h48, Char.ofNat_toNat]

theorem toDecDigits_zero : toDecDigits 0 = [] := by
  simp [toDecDigits]

theorem toDecDigits_pos (n : Nat) (h : n ≠ 0) :
    toDecDigits n = toDecDigits (n / 10) ++ [digitChar (n % 10)] := by
  cases n with
  | zero => exact absurd rfl h
  | succ m => rw [toDecDigits]

theorem toDecDigits_spec (n : Nat) :
    repValue (toDecDigits n) = n ∧
    (toDecDigits n).all isDigitChar = true ∧
    (n ≠ 0 → toDecDigits n ≠ [] ∧ (toDecDigits n).head? ≠ some '0') := by
  induction n using Nat.strong_induction_on with
  | _ n ih =>
    by_cases h0 : n = 0
    · subst h0
      simp [toDecDigits_zero, repValue]
    · have hq : n / 10 < n := Nat.div_lt_self (Nat.pos_of_ne_zero h0) (by norm_num)
      have hr : n % 10 < 10 := Nat.mod_lt _ (by norm_num)
      obtain ⟨ihv, iha, ihh⟩ := ih (n / 10) hq
      obtain ⟨hda, hdv, hd0⟩ := digitChar_fact (n % 10) hr
      rw [toDecDigits_pos n h0]
      refine ⟨?_, ?_, fun _ => ⟨by simp, ?_⟩⟩
      · rw [repValue_append, ihv, hdv]
        omega
      · simp only [List.all_append, ihv, Bool.and_eq_true]
        exact ⟨iha, by simp [hda]⟩
      · by_cases hq0 : n / 10 = 0
        · rw [hq0, toDecDigits_zero, List.nil_append]
          have : n % 10 ≠ 0 := by omega
          simp only [List.head?_cons, ne_eq, Option.some.injEq]
          exact fun e => this (hd0.mp e)
        · obtain ⟨hne, hhd⟩ := ihh hq0
          cases hh : (toDecDigits (n / 10)).head? with
          | none => exact absurd (List.head?_eq_none_iff.mp hh) hne
          | some c =>
            have : ((toDecDigits (n / 10)) ++ [digitChar (n % 10)]).head? = some c := by
              cases hl : toDecDigits (n / 10) with
              | nil => exact absurd hl hne
              | cons x xs => rw [hl] at hh; simpa using hh
            rw [this]
            rw [hh] at hhd
            exact fun e => hhd (by simpa using e)

theorem u64_to_string_spec (n : Nat) :
    u64_to_string n ≠ [] ∧ (u64_to_string n).all isDigitChar = true ∧
    repValue (u64_to_string n) = n ∧
    ((u64_to_string n).head? = some '0' → n = 0 ∧ u64_to_string n = ['0']) := by
  by_cases h0 : n = 0
  · subst h0; exact ⟨by decide, by decide, by decide, fun _ => ⟨rfl, rfl⟩⟩
  · obtain ⟨hv, ha, hh⟩ := toDecDigits_spec n
    obtain ⟨hne, hhd⟩ := hh h0
    rw [u64_to_string, if_neg h0]
    exact ⟨hne, ha, hv, fun e => absurd e hhd⟩

theorem canonical_toDec : ∀ s : List Char, s ≠ [] → s.all isDigitChar = true →
    (s.head? = some '0' → s = ['0']) → u64_to_string (repValue s) = s := by
  intro s
  induction s using List.reverseRecOn with
  | nil => intro h; exact absurd rfl h
  | append_singleton l c ih =>
    intro _ h2 h3
    rw [List.all_append] at h2
    simp only [Bool.and_eq_true] at h2
    have hc : isDigitChar c = true := by simpa using h2.2
    obtain ⟨hd10, hdc, _⟩ := isDigitChar_fact c hc
    rw [repValue_append]
    cases l with
    | nil =>
      simp only [repValue, Nat.mul_zero, Nat.zero_add]
      by_cases hd0 : c.toNat - 48 = 0
      · rw [hd0, u64_to_string, if_pos rfl]
        rw [hd0] at hdc
        rw [← hdc]
        decide
      · rw [u64_to_string, if_neg hd0, toDecDigits_pos _ hd0,
          Nat.div_eq_of_lt hd10, Nat.mod_eq_of_lt hd10, toDecDigits_zero,
          List.nil_append, hdc]
        rfl
    | cons x xs =>
      have hx : isDigitChar x = true := by
        have := h2.1
        simp only [List.all_cons, Bool.and_eq_true] at this
        exact this.1
      obtain ⟨_, hxc, hx48⟩ := isDigitChar_fact x hx
      have hx0 : x ≠ '0' := by
        intro e
        have : ((x :: xs) ++ [c]).head? = some '0' := by simp [e]
        have hlen := congrArg List.length (h3 this)
        simp at hlen
      have hxne : x.toNat ≠ 48 := by
        intro e
        apply hx0
        rw [← hxc, e]
        decide
      have hlpos : 0 < repValue (x :: xs) := by
        have hterm : 1 * 1 ≤ (x.toNat - 48) * 10 ^ xs.length :=
          Nat.mul_le_mul (by omega) (Nat.one_le_pow _ _ (by norm_num))
        simp only [repValue]
        omega
      have ihl : u64_to_string (repValue (x :: xs)) = x :: xs := by
        refine ih (by simp) h2.1 fun hh => ?_
        exact absurd (by simpa using hh) hx0
      have hn0 : 10 * repValue (x :: xs) + (c.toNat - 48) ≠ 0 := by omega
      rw [u64_to_string, if_neg hn0, toDecDigits_pos _ hn0]
      have hdiv : (10 * repValue (x :: xs) + (c.toNat - 48)) / 10 = repValue (x :: xs) := by
        omega
      have hmod : (10 * repValue (x :: xs) + (c.toNat - 48)) % 10 = c.toNat - 48 := by
        omega
      rw [hdiv, hmod, hdc]
      rw [u64_to_string, if_neg (by omega)] at ihl
      rw [ihl]

/-! Comma splitting, trimming and token formatting lemmas -/

theorem splitComma_ne_nil (s : List Char) : splitComma s ≠ [] := by
  induction s with
  | nil => simp [splitComma]
  | cons c rest ih =>
    rw [splitComma]
    by_cases hc : c = ','
    · simp [hc]
    · rw [if_neg hc]
      cases h : splitComma rest with
      | nil => simp
      | cons p ps => simp

theorem splitComma_no_comma (s : List Char) (h : ',' ∉ s) : splitComma s = [s] := by
  induction s with
  | nil => rfl
  | cons c rest ih =>
    simp only [List.mem_cons, not_or] at h
    have hc : ¬(c = ',') := fun e => h.1 e.symm
    rw [splitComma, if_neg hc, ih h.2]

theorem splitComma_append (a r : List Char) (h : ',' ∉ a) :
    splitComma (a ++ ',' :: r) = a :: splitComma r := by
  induction a with
  | nil => simp [splitComma]
  | cons c cs ih =>
    simp only [List.mem_cons, not_or] at h
    have hc : ¬(c = ',') := fun e => h.1 e.symm
    rw [List.cons_append, splitComma, if_neg hc, ih h.2]

theorem length_dropWhile_le (p : Char → Bool) (l : List Char) :
    (l.dropWhile p).length ≤ l.length := by
  induction l with
  | nil => simp
  | cons a l ih =>
    rw [List.dropWhile_cons]
    by_cases hp : p a = true
    · simp only [hp, if_pos]
      exact Nat.le_trans ih (Nat.le_succ _)
    · simp [hp]

theorem dropWhile_of_length_eq (p : Char → Bool) (l : List Char)
    (h : (l.dropWhile p).length = l.length) : l.dropWhile p = l := by
  cases l with
  | nil => rfl
  | cons a l =>
    rw [List.dropWhile_cons] at h ⊢
    by_cases hp : p a = true
    · rw [if_pos hp] at h
      have := length_dropWhile_le p l
      simp at h
      omega
    · simp [hp]

theorem trimLeft_ws_append (w s : List Char) (hw : ∀ c ∈ w, c.isWhitespace = true) :
    trimLeft (w ++ s) = trimLeft s := by
  induction w with
  | nil => rfl
  | cons c cs ih =>
    have hc := hw c (List.mem_cons_self c cs)
    rw [List.cons_append, trimLeft, List.dropWhile_cons, if_pos hc]
    exact ih fun x hx => hw x (List.mem_cons_of_mem c hx)

theorem trim_eq_self_parts (s : List Char) (h : trim s = s) :
    trimLeft s = s ∧ trimLeft s.reverse = s.reverse := by
  have e1 : (trimLeft s).length ≤ s.length := length_dropWhile_le _ s
  have e2 : (trimLeft (trimLeft s).reverse).length ≤ (trimLeft s).length := by
    have := length_dropWhile_le Char.isWhitespace (trimLeft s).reverse
    simpa using this
  have e3 : (trim s).length = s.length := by rw [h]
  rw [trim, List.length_reverse] at e3
  have h1 : trimLeft s = s :=
    dropWhile_of_length_eq _ s (by unfold trimLeft at *; omega)
  refine ⟨h1, ?_⟩
  rw [trim, h1] at h
  have := congrArg List.reverse h
  rwa [List.reverse_reverse] at this

theorem trim_ws_append (w s : List Char) (hw : ∀ c ∈ w, c.isWhitespace = true)
    (hs : trim s = s) : trim (w ++ s) = s := by
  obtain ⟨h1, h2⟩ := trim_eq_self_parts s hs
  rw [trim, trimLeft_ws_append w s hw, h1, h2, List.reverse_reverse]

theorem good_fmt (t : Encoding) (h : t.good) :
    t.fmt ≠ [] ∧ ',' ∉ t.fmt ∧ trim t.fmt = t.fmt := by
  cases t with
  | EncodingExt s => exact h
  | Chunked => exact ⟨by decide, by decide, by decide⟩
  | Gzip => exact ⟨by decide, by decide, by decide⟩
  | Deflate => exact ⟨by decide, by decide, by decide⟩
  | Compress => exact ⟨by decide, by decide, by decide⟩

theorem tokenize_ws_fmt (ts : List Encoding) (hne : ts ≠ [])
    (hg : ∀ t ∈ ts, t.good) : ∀ w : List Char,
    (∀ c ∈ w, c.isWhitespace = true) → ',' ∉ w →
    tokenize (w ++ fmt_comma_delimited ts) = ts.map Encoding.fmt := by
  induction ts with
  | nil => exact absurd rfl hne
  | cons t rest ih =>
    intro w hw hwc
    obtain ⟨hf1, hf2, hf3⟩ := good_fmt t (hg t (List.mem_cons_self t rest))
    have hnc : ',' ∉ w ++ t.fmt := by
      simp only [List.mem_append, not_or]
      exact ⟨hwc, hf2⟩
    have hie : (!t.fmt.isEmpty) = true := by
      cases hfmt : t.fmt with
      | nil => exact absurd hfmt hf1
      | cons a l => rfl
    cases rest with
    | nil =>
      rw [show fmt_comma_delimited [t] = t.fmt from rfl, tokenize,
        splitComma_no_comma _ hnc]
      rw [List.map_cons, List.map_nil, trim_ws_append w t.fmt hw hf3]
      simp [List.filter, hie]
    | cons t2 rest2 =>
      have hfc : fmt_comma_delimited (t :: t2 :: rest2) =
          t.fmt ++ ", ".data ++ fmt_comma_delimited (t2 :: rest2) := rfl
      have hdata : ", ".data = [',', ' '] := rfl
      have hassoc : w ++ fmt_comma_delimited (t :: t2 :: rest2) =
          (w ++ t.fmt) ++ ',' :: (' ' :: fmt_comma_delimited (t2 :: rest2)) := by
        rw [hfc, hdata]
        simp [List.append_assoc]
      rw [hassoc, tokenize, splitComma_append _ _ hnc, List.map_cons,
        trim_ws_append w t.fmt hw hf3]
      rw [List.filter_cons, if_pos hie]
      have ihr := ih (by simp) (fun x hx => hg x (List.mem_cons_of_mem t hx))
        [' '] (by decide) (by decide)
      rw [show ([' '] ++ fmt_comma_delimited (t2 :: rest2)) =
        ' ' :: fmt_comma_delimited (t2 :: rest2) from rfl, tokenize] at ihr
      rw [ihr]
      simp

theorem from_str_fmt (t : Encoding) : Encoding.from_str t.fmt = some (normalize t) := by
  cases t with
  | EncodingExt s =>
    rw [Encoding.fmt, Encoding.from_str, normalize]
    split_ifs <;> rfl
  | Chunked => decide
  | Gzip => decide
  | Deflate => decide
  | Compress => decide

theorem from_str_isSome (s : List Char) : (Encoding.from_str s).isSome = true := by
  rw [Encoding.from_str]
  split_ifs <;> rfl

theorem filterMap_from_str_fmt (ts : List Encoding) :
    (ts.map Encoding.fmt).filterMap Encoding.from_str = ts.map normalize := by
  induction ts with
  | nil => rfl
  | cons t rest ih =>
    rw [List.map_cons, List.filterMap_cons, from_str_fmt t, List.map_cons, ih]

theorem from_one_raw_str_singleton (s : List Char) :
    from_one_raw_str [s] = parse_u64 s := rfl

theorem parse_u64_eq (s : List Char) :
    parse_u64 s = if s ≠ [] ∧ s.all isDigitChar = true ∧ repValue s < 2 ^ 64
      then some (repValue s) else none := by
  have hf : s.foldl decStep 0 = repValue s := by
    rw [foldl_decStep]
    simp
  rw [parse_u64]
  by_cases h1 : s = []
  · simp [h1]
  · rw [if_neg h1]
    by_cases h2 : s.all isDigitChar = true
    · rw [if_pos h2]
      simp only [hf]
      by_cases h3 : repValue s < 2 ^ 64
      · rw [if_pos h3, if_pos ⟨h1, h2, h3⟩]
      · rw [if_neg h3, if_neg fun hh => h3 hh.2.2]
    · rw [if_neg h2, if_neg fun hh => h2 hh.2.1]

theorem parse_header_piece_nonempty (raw : List (List Char)) (line : List Char)
    (hline : line ∈ raw) (p : List Char) (hp : p ∈ (splitComma line).map trim)
    (hpne : p ≠ []) :
    ∃ ts, TransferEncoding.parse_header raw = some (TransferEncoding.mk ts) ∧ ts ≠ [] := by
  have hraw : ¬(raw = []) := by
    intro e
    subst e
    exact absurd hline (List.not_mem_nil line)
  have hptok : p ∈ tokenize line := by
    rw [tokenize, List.mem_filter]
    refine ⟨hp, ?_⟩
    cases hq : p with
    | nil => exact absurd hq hpne
    | cons a l => rfl
  have hpflat : p ∈ (raw.map tokenize).flatten := by
    rw [List.mem_flatten]
    exact ⟨tokenize line, List.mem_map_of_mem tokenize hline, hptok⟩
  obtain ⟨e, he⟩ := Option.isSome_iff_exists.mp (from_str_isSome p)
  refine ⟨((raw.map tokenize).flatten).filterMap Encoding.from_str, ?_, ?_⟩
  · rw [TransferEncoding.parse_header, from_comma_delimited, if_neg hraw]
    rfl
  · exact List.ne_nil_of_mem (List.mem_filterMap.mpr ⟨p, hpflat, he⟩)

/-! The claims -/

/-- C1: every valid decimal string s denoting n ≤ 2^64−1 parses as a
single raw line to Some(ContentLength(n)), and formatting ContentLength(n)
yields a string whose single raw line re-parses to Some(ContentLength(n)). -/
theorem content_length_decimal_roundtrip (s : List Char) (n : Nat)
    (h1 : s ≠ []) (h2 : s.all isDigitChar = true) (h3 : repValue s = n)
    (h4 : n < 2 ^ 64) :
    ContentLength.parse_header [s] = some ⟨n⟩ ∧
    ContentLength.parse_header [ContentLength.fmt_header ⟨n⟩] = some ⟨n⟩ := by
  obtain ⟨g1, g2, g3, _⟩ := u64_to_string_spec n
  constructor
  · rw [ContentLength.parse_header, from_one_raw_str_singleton, parse_u64_eq,
      if_pos ⟨h1, h2, h3.symm ▸ h4⟩, h3]
    rfl
  · rw [ContentLength.parse_header,
      show ContentLength.fmt_header ⟨n⟩ = u64_to_string n from rfl,
      from_one_raw_str_singleton, parse_u64_eq, if_pos ⟨g1, g2, g3.symm ▸ h4⟩, g3]
    rfl

theorem content_length_decimal_roundtrip_witness :
    ContentLength.parse_header ["42349984".data] = some ⟨42349984⟩ ∧
    ContentLength.parse_header [ContentLength.fmt_header ⟨42349984⟩] = some ⟨42349984⟩ :=
  content_length_decimal_roundtrip "42349984".data 42349984 (by decide) (by decide)
    (by decide) (by decide)

/-- C2 counterexample: an EncodingExt token whose string contains a comma
does not survive the format-then-parse round trip, refuting the claim for
arbitrary strings. -/
theorem transfer_encoding_roundtrip_fails_on_comma :
    TransferEncoding.fmt_header ⟨[.EncodingExt "a,b".data]⟩ = "a,b".data ∧
    TransferEncoding.parse_header [TransferEncoding.fmt_header ⟨[.EncodingExt "a,b".data]⟩]
      = some ⟨[.EncodingExt "a".data, .EncodingExt "b".data]⟩ ∧
    TransferEncoding.parse_header [TransferEncoding.fmt_header ⟨[.EncodingExt "a,b".data]⟩]
      ≠ some ⟨[.EncodingExt "a,b".data]⟩ :=
  ⟨by decide, by decide, by decide⟩

/-- C2 (amended): for a non-empty token sequence whose EncodingExt strings
are non-empty, comma-free and whitespace-trimmed, formatting with
fmt_header and re-parsing the resulting single line reproduces the
sequence tokenwise, except that an EncodingExt whose string exactly
matches a known keyword comes back as that keyword's canonical variant
(the normalize map). -/
theorem transfer_encoding_roundtrip_normalized (ts : List Encoding) (h1 : ts ≠ [])
    (h2 : ∀ t ∈ ts, t.good) :
    TransferEncoding.parse_header [TransferEncoding.fmt_header ⟨ts⟩] =
      some ⟨ts.map normalize⟩ := by
  have htok := tokenize_ws_fmt ts h1 h2 [] (by simp) (by simp)
  rw [List.nil_append] at htok
  rw [TransferEncoding.parse_header, from_comma_delimited, if_neg (by simp),
    show TransferEncoding.fmt_header ⟨ts⟩ = fmt_comma_delimited ts from rfl,
    List.map_cons, List.map_nil, List.flatten_cons, List.flatten_nil,
    List.append_nil, htok, filterMap_from_str_fmt]
  rfl

theorem transfer_encoding_roundtrip_normalized_witness :
    TransferEncoding.parse_header
        [TransferEncoding.fmt_header ⟨[.Chunked, .EncodingExt "ext".data]⟩] =
      some ⟨([Encoding.Chunked, .EncodingExt "ext".data]).map normalize⟩ :=
  transfer_encoding_roundtrip_normalized [.Chunked, .EncodingExt "ext".data]
    (by simp)
    (by
      intro t ht
      simp only [List.mem_cons, List.not_mem_nil, or_false] at ht
      rcases ht with h | h
      · subst h; trivial
      · subst h; exact ⟨by decide, by decide, by decide⟩)

/-- C3: Encoding::from_str is total, maps exactly the four known keywords
(case-sensitively) to their variants and every other string s to
EncodingExt(s); consequently the token-list header parse is none only for
an empty raw line set, never due to per-token parsing. -/
theorem encoding_from_str_total (s : List Char)
    (h : s ∉ [("chunked".data : List Char), "deflate".data, "gzip".data, "compress".data]) :
    (∀ t : List Char, (Encoding.from_str t).isSome = true) ∧
    Encoding.from_str "chunked".data = some .Chunked ∧
    Encoding.from_str "gzip".data = some .Gzip ∧
    Encoding.from_str "deflate".data = some .Deflate ∧
    Encoding.from_str "compress".data = some .Compress ∧
    Encoding.from_str s = some (.EncodingExt s) ∧
    ∀ raw, (TransferEncoding.parse_header raw = none ↔ raw = []) := by
  simp only [List.mem_cons, List.not_mem_nil, or_false, not_or] at h
  refine ⟨from_str_isSome, by decide, by decide, by decide, by decide, ?_, ?_⟩
  · rw [Encoding.from_str, if_neg h.1, if_neg h.2.1, if_neg h.2.2.1, if_neg h.2.2.2]
  · intro raw
    constructor
    · intro hn
      by_contra hne
      rw [TransferEncoding.parse_header, from_comma_delimited, if_neg hne] at hn
      simp at hn
    · intro e
      subst e
      rfl

theorem encoding_from_str_total_witness :
    (∀ t : List Char, (Encoding.from_str t).isSome = true) ∧
    Encoding.from_str "chunked".data = some .Chunked ∧
    Encoding.from_str "gzip".data = some .Gzip ∧
    Encoding.from_str "deflate".data = some .Deflate ∧
    Encoding.from_str "compress".data = some .Compress ∧
    Encoding.from_str "ext".data = some (.EncodingExt "ext".data) ∧
    ∀ raw, (TransferEncoding.parse_header raw = none ↔ raw = []) :=
  encoding_from_str_total "ext".data (by decide)

/-- C4: ContentLength::parse_header yields None on zero lines, on two or
more lines (in particular on ["10", "20"]) and on a single line holding
any non-digit character. -/
theorem content_length_parse_rejects (l : List Char) (c : Char)
    (raw2 : List (List Char)) (hc : c ∈ l) (hd : isDigitChar c = false)
    (h2 : 2 ≤ raw2.length) :
    ContentLength.parse_header [] = none ∧
    ContentLength.parse_header raw2 = none ∧
    ContentLength.parse_header ["10".data, "20".data] = none ∧
    ContentLength.parse_header [l] = none := by
  refine ⟨rfl, ?_, by decide, ?_⟩
  · cases raw2 with
    | nil => simp at h2
    | cons a t =>
      cases t with
      | nil => simp at h2
      | cons b t2 => rfl
  · rw [ContentLength.parse_header, from_one_raw_str_singleton, parse_u64_eq, if_neg]
    · rfl
    · rintro ⟨-, hall, -⟩
      rw [List.all_eq_true] at hall
      have := hall c hc
      rw [hd] at this
      exact absurd this (by simp)

theorem content_length_parse_rejects_witness :
    ContentLength.parse_header [] = none ∧
    ContentLength.parse_header ["1".data, "2".data, "3".data] = none ∧
    ContentLength.parse_header ["10".data, "20".data] = none ∧
    ContentLength.parse_header ["1a".data] = none :=
  content_length_parse_rejects "1a".data 'a' ["1".data, "2".data, "3".data]
    (by decide) (by decide) (by decide)

/-- C5: a single raw line parses as the byte-count header exactly when it
is a non-empty all-ASCII-digit string whose value fits an unsigned 64-bit
integer; leading zeros are accepted (["007"] gives 7) while a sign
character is rejected (["+7"] and ["-7"] give None). -/
theorem content_length_parse_characterization (s : List Char) :
    ((ContentLength.parse_header [s]).isSome = true ↔
      s ≠ [] ∧ s.all isDigitChar = true ∧ repValue s < 2 ^ 64) ∧
    ContentLength.parse_header ["007".data] = some ⟨7⟩ ∧
    ContentLength.parse_header ["+7".data] = none ∧
    ContentLength.parse_header ["-7".data] = none := by
  refine ⟨?_, by decide, by decide, by decide⟩
  rw [ContentLength.parse_header, from_one_raw_str_singleton, parse_u64_eq]
  by_cases h : s ≠ [] ∧ s.all isDigitChar = true ∧ repValue s < 2 ^ 64
  · simp [if_pos h, h]
  · simp [if_neg h, h]

/-- C6: TransferEncoding::parse_header yields None on zero raw lines, and
yields Some with at least one token whenever some comma-split,
whitespace-trimmed piece of some line is non-empty. -/
theorem transfer_encoding_parse_some_nonempty (raw : List (List Char))
    (h : ∃ line ∈ raw, ∃ p ∈ (splitComma line).map trim, p ≠ []) :
    TransferEncoding.parse_header [] = none ∧
    ∃ ts, TransferEncoding.parse_header raw = some ⟨ts⟩ ∧ ts ≠ [] := by
  obtain ⟨line, hline, p, hp, hpne⟩ := h
  exact ⟨rfl, parse_header_piece_nonempty raw line hline p hp hpne⟩

theorem transfer_encoding_parse_some_nonempty_witness :
    TransferEncoding.parse_header [] = none ∧
    ∃ ts, TransferEncoding.parse_header [" , deflate".data] = some ⟨ts⟩ ∧ ts ≠ [] :=
  transfer_encoding_parse_some_nonempty [" , deflate".data] (by decide)

/-- C7: ["chunked, gzip"] parses to the token sequence [Chunked, Gzip],
and formatting that sequence writes exactly "chunked, gzip" — the tokens
joined with comma and a single space, in stored order. -/
theorem transfer_encoding_chunked_gzip_scenario :
    TransferEncoding.parse_header ["chunked, gzip".data] = some ⟨[.Chunked, .Gzip]⟩ ∧
    TransferEncoding.fmt_header ⟨[.Chunked, .Gzip]⟩ = "chunked, gzip".data ∧
    TransferEncoding.fmt_header ⟨[.Chunked, .Gzip]⟩ =
      Encoding.Chunked.fmt ++ ", ".data ++ Encoding.Gzip.fmt :=
  ⟨by decide, by decide, by decide⟩

/-- C8: header_name is a constant per header type, independent of the
argument and never computed from a stored value: always "Content-Length"
for ContentLength and "Transfer-Encoding" for TransferEncoding. -/
theorem header_name_constant :
    (∀ a, ContentLength.header_name a = "Content-Length".data) ∧
    (∀ b, TransferEncoding.header_name b = "Transfer-Encoding".data) ∧
    (∀ a a', ContentLength.header_name a = ContentLength.header_name a') ∧
    (∀ b b', TransferEncoding.header_name b = TransferEncoding.header_name b') :=
  ⟨fun _ => rfl, fun _ => rfl, fun _ _ => rfl, fun _ _ => rfl⟩

/-- C9: for every unsigned 64-bit value n, ContentLength::fmt_header
produces the unique canonical decimal representation of n: non-empty, all
digits, value n, no leading zero except the single digit "0" for n = 0 —
and it is the only such string; hence ["007"] parses to 7, which formats
back as "7". -/
theorem content_length_fmt_canonical (n : Nat) (h : n < 2 ^ 64) :
    (ContentLength.fmt_header ⟨n⟩).all isDigitChar = true ∧
    ContentLength.fmt_header ⟨n⟩ ≠ [] ∧
    repValue (ContentLength.fmt_header ⟨n⟩) = n ∧
    ((ContentLength.fmt_header ⟨n⟩).head? = some '0' →
      n = 0 ∧ ContentLength.fmt_header ⟨n⟩ = ['0']) ∧
    (∀ t : List Char, t ≠ [] → t.all isDigitChar = true →
      (t.head? = some '0' → t = ['0']) → repValue t = n →
      t = ContentLength.fmt_header ⟨n⟩) ∧
    ContentLength.parse_header ["007".data] = some ⟨7⟩ ∧
    ContentLength.fmt_header ⟨7⟩ = ['7'] := by
  obtain ⟨g1, g2, g3, g4⟩ := u64_to_string_spec n
  refine ⟨g2, g1, g3, g4, ?_, by decide, ?_⟩
  · intro t ht1 ht2 ht3 ht4
    have hcan := canonical_toDec t ht1 ht2 ht3
    rw [ht4] at hcan
    exact hcan.symm
  · have hcan := canonical_toDec ['7'] (by decide) (by decide) (by decide)
    rw [show repValue ['7'] = 7 from by decide] at hcan
    exact hcan

theorem content_length_fmt_canonical_witness :
    ContentLength.fmt_header ⟨7⟩ = ['7'] :=
  (content_length_fmt_canonical 7 (by decide)).2.2.2.2.2.2

/-- C10 counterexample: parse_header does not guarantee a non-empty token
list in every Some result — a single raw line with no non-empty piece
decodes to Some(TransferEncoding([])). -/
theorem parse_header_some_empty_list :
    ¬ ∀ (raw : List (List Char)) (ts : List Encoding),
        TransferEncoding.parse_header raw = some ⟨ts⟩ → ts ≠ [] := by
  intro h
  exact h [[]] [] (by decide) rfl

/-- C10 (amended): the TransferEncoding type does not enforce
non-emptiness — TransferEncoding([]) is constructible and fmt_header on it
writes the empty string — and neither does the decode path
unconditionally: parse_header [""] returns Some(TransferEncoding([]));
a Some result is non-empty whenever some comma-split, trimmed piece of
some raw line is non-empty. -/
theorem transfer_encoding_empty_invariant (raw : List (List Char)) (ts : List Encoding)
    (h1 : TransferEncoding.parse_header raw = some ⟨ts⟩)
    (h2 : ∃ line ∈ raw, ∃ p ∈ (splitComma line).map trim, p ≠ []) :
    TransferEncoding.fmt_header ⟨[]⟩ = [] ∧
    TransferEncoding.parse_header [[]] = some ⟨[]⟩ ∧
    ts ≠ [] := by
  refine ⟨rfl, by decide, ?_⟩
  obtain ⟨line, hline, p, hp, hpne⟩ := h2
  obtain ⟨ts2, hts2, hne⟩ := parse_header_piece_nonempty raw line hline p hp hpne
  rw [h1] at hts2
  have heq : ts = ts2 := congrArg TransferEncoding.encodings (Option.some.inj hts2)
  rw [heq]
  exact hne

theorem transfer_encoding_empty_invariant_witness :
    TransferEncoding.fmt_header ⟨[]⟩ = [] ∧
    TransferEncoding.parse_header [[]] = some ⟨[]⟩ ∧
    ([Encoding.Chunked] : List Encoding) ≠ [] :=
  transfer_encoding_empty_invariant ["chunked".data] [.Chunked] (by decide) (by decide)

end HyperHeader
